import Mathlib

/-!
Verification development for the implications-trainer repository
(syllogism quiz generator).

The embedding below is a shallow model of the three generator
implementations:

* `src/pages/api/multi-quiz.ts`  (multi-answer mode: `shuffle`,
  `getRandomElement`, `expandCorrectAnswers`, `isValid`, the do-while
  rejection-sampling loop and `generateMultiQuiz`);
* `src/components/QuizGenerator.ts` and `src/pages/api/quiz.ts`
  (single-answer mode).  The two `generateQuiz` functions differ in one
  point: the component's `shuffle` mutates in place, so its
  `shuffle(terms)` really shuffles the vocabulary, while the API route's
  `shuffle` copies first and `quiz.ts:65` discards the returned copy, so
  that route's vocabulary is never shuffled (see `apiTermAssignment`).
  `generateQuiz` below embeds the component; the API route is the same
  pipeline with the unshuffled term map, which is immaterial to the
  shape properties proved for claims C2 and C10 but decisive for C6.

JavaScript's `Math.random()`-driven choices are modelled by a stream
`r : Nat -> Nat`; a call `Math.floor(Math.random() * n)` at call index
`k` is modelled as `r k % n`, which ranges over exactly the values the
source call can produce.  Fallible operations (indexing an empty array,
`correct[0]` on an empty array) return `Option`.

The repository's data files `src/data/quiz-templates.json`,
`src/i18n/en.json` and `src/i18n/de.json` are not part of the source
tree given to us; the template library, the sentence-pattern tables and
the vocabulary lists are therefore parameters of the embedded functions,
with concrete instances modelled from the spec where a claim needs them.
-/

set_option maxHeartbeats 2000000
set_option maxRecDepth 4000

/-- `QuantifierType` from the source: `"all" | "none" | "some" | "some_none" | "unknown"`. -/
inductive QType where
  | all
  | none
  | some
  | some_none
  | unknown
deriving DecidableEq, Repr, Fintype

/-- The three entity variables `"X" | "Y" | "Z"` of the source. -/
inductive Var where
  | X
  | Y
  | Z
deriving DecidableEq, Repr, Fintype

/-- `Conclusion` from the source: a `(type, subject, object)` triple.
The source's `Statement` type is the same shape with `"unknown"` excluded
at the type level; we use `Conclusion` for both and carry the premise
restrictions as hypotheses where they matter. -/
structure Conclusion where
  type : QType
  subject : Var
  object : Var
deriving DecidableEq, Repr

/-- `QuizItem` from the source: two premise statements and the canonical
list of correct conclusions. -/
structure QuizItem where
  statements : Conclusion × Conclusion
  correct : List Conclusion
deriving DecidableEq, Repr

/-- The two premises as a list, in source order (`item.statements` is a
2-tuple iterated with `for..of` / `.map`). -/
def stmts (item : QuizItem) : List Conclusion :=
  [item.statements.1, item.statements.2]

/-- `allTypes` from the source. -/
def allTypes : List QType :=
  [QType.all, QType.none, QType.some, QType.some_none, QType.unknown]

/-- The enumeration order `["X", "Y", "Z"]` used by the candidate loops. -/
def vars : List Var :=
  [Var.X, Var.Y, Var.Z]

/-- The deduplication key of the source, the string
`type:subject->object`; a triple determines the key and conversely, so we
model it by the triple itself. -/
def ckey (c : Conclusion) : QType × Var × Var :=
  (c.type, c.subject, c.object)

/-! ## Strings: JavaScript `String.prototype.replace` with a string
pattern replaces only the first occurrence. -/

/-- Replace the first occurrence of `pat` in `s` (both as character
lists); if `pat` does not occur, return `s` unchanged — the semantics of
JavaScript `s.replace(pat, rep)` for string patterns. -/
def replFirst (s : List Char) (pat rep : List Char) : List Char :=
  match s with
  | [] => []
  | c :: rest =>
    if pat.isPrefixOf (c :: rest) then rep ++ (c :: rest).drop pat.length
    else c :: replFirst rest pat rep

/-- String-level first-occurrence replacement. -/
def replaceFirst (s pat rep : String) : String :=
  ⟨replFirst s.data pat.data rep.data⟩

/-- The subject placeholder of the pattern tables. -/
def subPl : String := "{sub}"

/-- The object placeholder of the pattern tables. -/
def obPl : String := "{obj}"

/-- `t[type].replace("{sub}", subj).replace("{obj}", obj)` from the source. -/
def render (pat subj obj : String) : String :=
  replaceFirst (replaceFirst pat subPl subj) obPl obj

/-! ## Randomness: Fisher–Yates shuffle and random element pick. -/

/-- Advance a random stream past its first `k` values. -/
def shiftStream (r : Nat → Nat) (k : Nat) : Nat → Nat :=
  fun n => r (n + k)

/-- Swap the entries at positions `i` and `j` of a list (no-op when
either index is out of range), the `[a[i], a[j]] = [a[j], a[i]]` step of
the source's `shuffle`. -/
def listSwap (l : List α) (i j : Nat) : List α :=
  match l[i]?, l[j]? with
  | Option.some a, Option.some b => (l.set i b).set j a
  | _, _ => l

/-- The loop of the source's Fisher–Yates `shuffle`: iterate `i` from
`l.length - 1` down to `1`, swapping position `i` with position
`j = r c % (i + 1)` where `c` counts the `Math.random()` calls made so
far. -/
def fyAux : List α → (Nat → Nat) → Nat → Nat → List α
  | l, _, _, 0 => l
  | l, r, c, Nat.succ i =>
    fyAux (listSwap l (Nat.succ i) (r c % (Nat.succ i + 1))) r (c + 1) i

/-- `shuffle` from the source (the API routes copy the array first and
the component mutates in place; both compute this list). -/
def shuffleList (l : List α) (r : Nat → Nat) : List α :=
  fyAux l r 0 (l.length - 1)

/-- `getRandomElement` from the source:
`arr[Math.floor(Math.random() * arr.length)]`; `Option.none` models the
`undefined` produced on an empty array. -/
def getRandomElement (l : List α) (k : Nat) : Option α :=
  l[k % l.length]?

/-! ## Keep-first deduplication.

`expandCorrectAnswers` deduplicates through an insertion-ordered
`Map` keyed by `type:subject->object` (overwriting the value of an
existing key does not move it, and equal keys carry equal triples), and
`generateMultiQuiz` line 143 keeps each answer whose index equals the
`findIndex` of its sentence; both are keep-first-occurrence
deduplication by a key function. -/

/-- Keep-first deduplication with an accumulator of already-seen keys. -/
def dedupByAux (k : α → β) [DecidableEq β] : List α → List β → List α
  | [], _ => []
  | x :: xs, seen =>
    if k x ∈ seen then dedupByAux k xs seen
    else x :: dedupByAux k xs (k x :: seen)

/-- Keep the first occurrence of each key. -/
def dedupBy (k : α → β) [DecidableEq β] (l : List α) : List α :=
  dedupByAux k l []

/-! ## Entailment expansion and validity (multi-quiz, lines 67–105). -/

/-- The per-premise derivation rules of `expandCorrectAnswers`
(lines 70–85): an `all` premise pushes `some` both ways, a `some`
premise pushes its reversal, a `none` premise pushes its reversal, a
`some_none` premise pushes nothing. -/
def deriveStmt (s : Conclusion) : List Conclusion :=
  (if s.type = QType.all then
    [⟨QType.some, s.subject, s.object⟩, ⟨QType.some, s.object, s.subject⟩]
   else []) ++
  (if s.type = QType.some then [⟨QType.some, s.object, s.subject⟩] else []) ++
  (if s.type = QType.none then [⟨QType.none, s.object, s.subject⟩] else [])

/-- `expandCorrectAnswers` (lines 67–95): the canonical `correct` list,
then the conclusions derived from each premise in order, deduplicated
keep-first by the `type:subject->object` key. -/
def expandCorrectAnswers (item : QuizItem) : List Conclusion :=
  dedupBy ckey
    (item.correct ++ deriveStmt item.statements.1 ++ deriveStmt item.statements.2)

/-- `isValid` (lines 97–100):
`expanded.length > 0 && !expanded.every(c => c.type === "unknown")`. -/
def isValid (item : QuizItem) : Bool :=
  decide (0 < (expandCorrectAnswers item).length) &&
    !((expandCorrectAnswers item).all fun c => c.type == QType.unknown)

/-- The do-while rejection-sampling loop of `generateMultiQuiz`
(lines 102–105), unfolded to `fuel` iterations: pick a random template,
repeat while `isValid` fails.  The source loop is unbounded;
`Option.none` for every `fuel` models an execution that never exits the
loop.  On success the count of consumed random values is returned. -/
def pickValid : Nat → List QuizItem → (Nat → Nat) → Option (QuizItem × Nat)
  | 0, _, _ => Option.none
  | Nat.succ fuel, data, r =>
    match getRandomElement data (r 0) with
    | Option.none => Option.none
    | Option.some item =>
      if isValid item then Option.some (item, 1)
      else (pickValid fuel data (shiftStream r 1)).map fun p => (p.1, p.2 + 1)

/-! ## Term assignment (all three generators). -/

/-- The `termMap` of the generators: the first three entries of the
shuffled vocabulary assigned to `X`, `Y`, `Z`; `Option.none` models the
`undefined` entries a short vocabulary would produce. -/
def termMapOf (l : List String) : Option (Var → String) :=
  match l with
  | a :: b :: c :: _ =>
    Option.some fun v => match v with
      | Var.X => a
      | Var.Y => b
      | Var.Z => c
  | _ => Option.none

/-- Term assignment of `QuizGenerator.ts` lines 56–63 (copy the
vocabulary, shuffle it in place, take the first three entries). -/
def componentTermAssignment (terms : List String) (r : Nat → Nat) :
    Option (Var → String) :=
  termMapOf (shuffleList terms r)

/-- Term assignment of `src/pages/api/quiz.ts` lines 64–71.  That
file's `shuffle` (lines 38–45) copies its argument and returns the copy,
and the call `shuffle(terms);` at line 65 discards the returned value,
so the assignment always uses the unshuffled vocabulary: `X`, `Y`, `Z`
receive `terms[0]`, `terms[1]`, `terms[2]`.  The discarded shuffle still
consumes `terms.length - 1` random values, but the stream never
influences the result. -/
def apiTermAssignment (terms : List String) (_r : Nat → Nat) :
    Option (Var → String) :=
  termMapOf terms

/-- Term assignment of `src/pages/api/multi-quiz.ts` lines 57–63. -/
def multiTermAssignment (terms : List String) (r : Nat → Nat) :
    Option (Var → String) :=
  termMapOf (shuffleList terms r)

/-! ## Output shapes. -/

/-- A delivered answer: rendered sentence plus correctness flag. -/
structure Answer where
  sentence : String
  isCorrect : Bool
deriving DecidableEq, Repr

/-- The answer record of the single-answer generators before the final
projection, which still carries the quantifier type. -/
structure TAnswer where
  type : QType
  sentence : String
  isCorrect : Bool
deriving DecidableEq, Repr

/-- The `{ baseSentences, answers }` result of both generators. -/
structure QuizOut where
  baseSentences : List String
  answers : List Answer
deriving DecidableEq, Repr

/-! ## Single-answer generator (`QuizGenerator.ts` / `api/quiz.ts`). -/

/-- The random template pick, `getRandomElement(quizData.data)`. -/
def chosenItem (data : List QuizItem) (r : Nat → Nat) : Option QuizItem :=
  getRandomElement data (r 0)

/-- The random canonical conclusion pick,
`getRandomElement(item.correct)`; it happens after the vocabulary
shuffle, which consumed `terms.length - 1` random values. -/
def chosenConclusion (item : QuizItem) (terms : List String) (r : Nat → Nat) :
    Option Conclusion :=
  getRandomElement item.correct (r (1 + (terms.length - 1)))

/-- `generateQuiz` of `QuizGenerator.ts` lines 53–93: pick a template,
assign shuffled vocabulary to the variables, render the premises, pick
one canonical conclusion, build one candidate per quantifier type on the
chosen conclusion's subject/object pair, shuffle the four non-`unknown`
candidates and append the `unknown` candidate last.
`src/pages/api/quiz.ts` lines 61–107 are the same pipeline except that
its vocabulary shuffle is a no-op (`quiz.ts:65` discards the copy
returned by that file's copying `shuffle`), i.e. it equals this function
with `termMapOf terms` in place of the shuffled term map; every property
proved about `generateQuiz` below is independent of which term map is
assigned. -/
def generateQuiz (data : List QuizItem) (t : QType → String)
    (terms : List String) (r : Nat → Nat) : Option QuizOut :=
  match chosenItem data r with
  | Option.none => Option.none
  | Option.some item =>
    match termMapOf (shuffleList terms (shiftStream r 1)) with
    | Option.none => Option.none
    | Option.some tm =>
      let base := (stmts item).map fun s =>
        render (t s.type) (tm s.subject) (tm s.object)
      match chosenConclusion item terms r with
      | Option.none => Option.none
      | Option.some c =>
        let answers := allTypes.map fun ty =>
          TAnswer.mk ty (render (t ty) (tm c.subject) (tm c.object))
            (ty == c.type)
        let others := shuffleList
          (answers.filter fun a => !(a.type == QType.unknown))
          (shiftStream r (1 + (terms.length - 1) + 1))
        match answers.find? fun a => a.type == QType.unknown with
        | Option.none =>
          Option.some ⟨base, others.map fun a => ⟨a.sentence, a.isCorrect⟩⟩
        | Option.some u =>
          Option.some
            ⟨base, (others ++ [u]).map fun a => ⟨a.sentence, a.isCorrect⟩⟩

/-! ## Multi-answer generator (`multi-quiz.ts` lines 55–158). -/

/-- The two premise keys (`baseKeys`, line 113). -/
def baseKeysOf (item : QuizItem) : List (QType × Var × Var) :=
  [ckey item.statements.1, ckey item.statements.2]

/-- The candidate triples of `generateMultiQuiz` lines 115–129: for every
type except `unknown`, every ordered pair of distinct variables whose key
is not a premise key. -/
def candList (item : QuizItem) : List Conclusion :=
  allTypes.flatMap fun ty =>
    if ty = QType.unknown then []
    else
      vars.flatMap fun s =>
        vars.flatMap fun o =>
          if s ≠ o ∧ (ty, s, o) ∉ baseKeysOf item then [⟨ty, s, o⟩] else []

/-- The `isCorrect` labelling of lines 133–138: a candidate is correct
iff some expansion entry matches its triple exactly, or matches the
reversed triple and the shared type is `some`. -/
def multiLabel (exp : List Conclusion) (c : Conclusion) : Bool :=
  exp.any fun e =>
    e.type == c.type &&
      ((e.subject == c.subject && e.object == c.object) ||
        (e.subject == c.object && e.object == c.subject &&
          e.type == QType.some))

/-- A candidate mapped to its delivered answer (lines 131–140). -/
def answerOf (t : QType → String) (tm : Var → String)
    (exp : List Conclusion) (c : Conclusion) : Answer :=
  ⟨render (t c.type) (tm c.subject) (tm c.object), multiLabel exp c⟩

/-- `possibleAnswers` (lines 115–141). -/
def possibleAnswersOf (t : QType → String) (tm : Var → String)
    (item : QuizItem) : List Answer :=
  (candList item).map (answerOf t tm (expandCorrectAnswers item))

/-- `answers` (line 143): shuffle the candidates, keep the first answer
for each rendered sentence. -/
def answersPool (t : QType → String) (tm : Var → String) (item : QuizItem)
    (r : Nat → Nat) : List Answer :=
  dedupBy Answer.sentence (shuffleList (possibleAnswersOf t tm item) r)

/-- Lines 144–152: truncate to 6; if no correct answer survived, pop the
last slot and push one randomly chosen correct answer.  Line 151 then
calls `shuffle(finalAnswers)`, but this file's `shuffle` copies its
argument and the returned copy is discarded, so `finalAnswers` itself is
not reshuffled; the spliced answer stays in the last slot.
`Option.none` models `correct[0]` being `undefined`. -/
def finalizeAnswers (pool : List Answer) (r : Nat → Nat) :
    Option (List Answer) :=
  let fin := pool.take 6
  if fin.any Answer.isCorrect then Option.some fin
  else
    match (shuffleList (pool.filter Answer.isCorrect) r).head? with
    | Option.none => Option.none
    | Option.some c0 => Option.some (fin.dropLast ++ [c0])

/-- `generateMultiQuiz` (lines 55–158): shuffle the vocabulary, run the
rejection-sampling loop, render the premises, build, shuffle, dedup and
truncate the candidate answers, and repair the truncation if needed. -/
def generateMultiQuiz (data : List QuizItem) (t : QType → String)
    (terms : List String) (fuel : Nat) (r : Nat → Nat) : Option QuizOut :=
  match termMapOf (shuffleList terms r) with
  | Option.none => Option.none
  | Option.some tm =>
    match pickValid fuel data (shiftStream r (terms.length - 1)) with
    | Option.none => Option.none
    | Option.some (item, k) =>
      let base := (stmts item).map fun s =>
        render (t s.type) (tm s.subject) (tm s.object)
      let pool := answersPool t tm item (shiftStream r (terms.length - 1 + k))
      let afterPool :=
        terms.length - 1 + k + ((possibleAnswersOf t tm item).length - 1)
      (finalizeAnswers pool (shiftStream r afterPool)).map fun ans =>
        ⟨base, ans⟩

/-! ## Modelled data. -/

/-- Modelled from the spec: the English sentence-pattern table of
`src/i18n/en.json` (not present under `src/`), one pattern per
quantifier kind with a subject and an object placeholder. -/
def enT : QType → String
  | QType.all => "All {sub} are {obj}"
  | QType.none => "No {sub} are {obj}"
  | QType.some => "Some {sub} are {obj}"
  | QType.some_none => "Some {sub} are not {obj}"
  | QType.unknown => "No valid conclusion relates {sub} and {obj}"

/-- Modelled from the spec: the German sentence-pattern table of
`src/i18n/de.json` (not present under `src/`). -/
def deT : QType → String
  | QType.all => "Alle {sub} sind {obj}"
  | QType.none => "Keine {sub} sind {obj}"
  | QType.some => "Einige {sub} sind {obj}"
  | QType.some_none => "Einige {sub} sind keine {obj}"
  | QType.unknown => "Keine gueltige Aussage verbindet {sub} und {obj}"

/-- Modelled from the spec: an English vocabulary list (`en.json`
`terms`, at least three distinct terms). -/
def enTerms : List String := ["cats", "dogs", "birds"]

/-- Modelled from the spec: a German vocabulary list (`de.json`
`terms`). -/
def deTerms : List String := ["Katzen", "Hunde", "Voegel"]

/-- The Barbara template, pinned by `quiz-templates.test.ts` as the first
entry of the template library:
`{premises: [All(X,Y), All(Y,Z)], correct: [All(X,Z)]}`. -/
def barbara : QuizItem :=
  ⟨(⟨QType.all, Var.X, Var.Y⟩, ⟨QType.all, Var.Y, Var.Z⟩),
    [⟨QType.all, Var.X, Var.Z⟩]⟩

/-- The converging template of the spec's example:
`{premises: [All(Y,X), All(Z,X)], correct: [Unknown(Y,Z), Unknown(Z,Y)]}`
(the library's all-all common-object pattern, per
`quiz-templates.test.ts`). -/
def convergingTemplate : QuizItem :=
  ⟨(⟨QType.all, Var.Y, Var.X⟩, ⟨QType.all, Var.Z, Var.X⟩),
    [⟨QType.unknown, Var.Y, Var.Z⟩, ⟨QType.unknown, Var.Z, Var.Y⟩]⟩

/-- Modelled from the spec: the library's some_none/some_none chain
template, whose canonical conclusions are all `Unknown`
(`quiz-templates.test.ts` requires every premise-type combination to be
present and more than 20 all-`Unknown` templates). -/
def trivTemplate : QuizItem :=
  ⟨(⟨QType.some_none, Var.X, Var.Y⟩, ⟨QType.some_none, Var.Y, Var.Z⟩),
    [⟨QType.unknown, Var.X, Var.Z⟩, ⟨QType.unknown, Var.Z, Var.X⟩]⟩


/-! ## Permutation facts about the embedded Fisher–Yates shuffle. -/

/-- Setting position `j` to `a` and consing the old entry `b` permutes a
cons of `a`. -/
theorem cons_set_perm (l : List α) (j : Nat) (a b : α)
    (h : l[j]? = Option.some b) : List.Perm (b :: l.set j a) (a :: l) := by
  induction l generalizing j with
  | nil => simp at h
  | cons x t ih =>
    cases j with
    | zero =>
      rw [List.getElem?_cons_zero] at h
      cases h
      simpa using List.Perm.swap a b t
    | succ m =>
      rw [List.getElem?_cons_succ] at h
      have h1 : List.Perm (b :: x :: t.set m a) (x :: b :: t.set m a) :=
        List.Perm.swap x b _
      have h2 : List.Perm (x :: b :: t.set m a) (x :: a :: t) :=
        List.Perm.cons x (ih m h)
      have h3 : List.Perm (x :: a :: t) (a :: x :: t) := List.Perm.swap a x t
      simpa using h1.trans (h2.trans h3)

/-- One swap step is a permutation. -/
theorem listSwap_perm (l : List α) (i j : Nat) :
    List.Perm (listSwap l i j) l := by
  induction l generalizing i j with
  | nil => exact List.Perm.refl _
  | cons x t ih =>
    cases i with
    | zero =>
      cases j with
      | zero =>
        show List.Perm (listSwap (x :: t) 0 0) (x :: t)
        unfold listSwap
        rw [List.getElem?_cons_zero]
        exact List.Perm.refl _
      | succ m =>
        show List.Perm (listSwap (x :: t) 0 (m + 1)) (x :: t)
        unfold listSwap
        rw [List.getElem?_cons_zero, List.getElem?_cons_succ]
        cases h : t[m]? with
        | none => exact List.Perm.refl _
        | some b =>
          show List.Perm (((x :: t).set 0 b).set (m + 1) x) (x :: t)
          show List.Perm (b :: t.set m x) (x :: t)
          exact cons_set_perm t m x b h
    | succ n =>
      cases j with
      | zero =>
        show List.Perm (listSwap (x :: t) (n + 1) 0) (x :: t)
        unfold listSwap
        rw [List.getElem?_cons_zero, List.getElem?_cons_succ]
        cases h : t[n]? with
        | none => exact List.Perm.refl _
        | some a =>
          show List.Perm (((x :: t).set (n + 1) x).set 0 a) (x :: t)
          show List.Perm (a :: t.set n x) (x :: t)
          exact cons_set_perm t n x a h
      | succ m =>
        show List.Perm (listSwap (x :: t) (n + 1) (m + 1)) (x :: t)
        unfold listSwap
        rw [List.getElem?_cons_succ, List.getElem?_cons_succ]
        cases h1 : t[n]? with
        | none => exact List.Perm.refl _
        | some a =>
          cases h2 : t[m]? with
          | none => exact List.Perm.refl _
          | some b =>
            have base := ih n m
            unfold listSwap at base
            rw [h1, h2] at base
            exact List.Perm.cons x base

/-- The shuffle loop is a permutation. -/
theorem fyAux_perm (i : Nat) :
    ∀ (l : List α) (r : Nat → Nat) (c : Nat), List.Perm (fyAux l r c i) l := by
  induction i with
  | zero => intro l r c; exact List.Perm.refl l
  | succ i ih =>
    intro l r c
    exact List.Perm.trans (ih _ r (c + 1)) (listSwap_perm l _ _)

/-- `shuffle` returns a permutation of its input. -/
theorem shuffleList_perm (l : List α) (r : Nat → Nat) :
    List.Perm (shuffleList l r) l :=
  fyAux_perm _ l r 0

/-- A swap never changes the length. -/
theorem listSwap_length (l : List α) (i j : Nat) :
    (listSwap l i j).length = l.length := by
  unfold listSwap
  cases h1 : l[i]? with
  | none => rfl
  | some a =>
    cases h2 : l[j]? with
    | none => rfl
    | some b => simp [List.length_set]

/-- A swap of positions `≥ 2` and `0` does not move position `1`. -/
theorem listSwap_get1 (l : List α) (i : Nat) :
    (listSwap l (i + 2) 0)[1]? = l[1]? := by
  unfold listSwap
  cases h1 : l[i + 2]? with
  | none => rfl
  | some a =>
    cases h2 : l[0]? with
    | none => rfl
    | some b =>
      show ((l.set (i + 2) b).set 0 a)[1]? = l[1]?
      rw [List.getElem?_set_ne (by omega), List.getElem?_set_ne (by omega)]

/-- Under the all-zeros stream, the shuffle loop moves the original
second element to the front. -/
theorem fyAux_zero_get0 (i : Nat) :
    ∀ (l : List α) (c : Nat), 2 ≤ l.length →
      (fyAux l (fun _ => 0) c (i + 1))[0]? = l[1]? := by
  induction i with
  | zero =>
    intro l c hl
    show (listSwap l 1 (0 % 2))[0]? = l[1]?
    rw [Nat.zero_mod]
    match l, hl with
    | x :: y :: t, _ =>
      unfold listSwap
      rw [List.getElem?_cons_succ, List.getElem?_cons_zero,
        List.getElem?_cons_zero]
      simp
  | succ i ih =>
    intro l c hl
    show (fyAux (listSwap l (i + 2) (0 % (i + 3))) (fun _ => 0) (c + 1)
        (i + 1))[0]? = l[1]?
    have hz : (0 : Nat) % (i + 3) = 0 := Nat.zero_mod _
    rw [hz, ih _ (c + 1) (by rw [listSwap_length]; exact hl),
      listSwap_get1]

/-- Under the all-zeros stream, `shuffle` moves the second vocabulary
entry to the front. -/
theorem shuffleList_zero_head (a b : α) (rest : List α) :
    (shuffleList (a :: b :: rest) (fun _ => 0))[0]? = Option.some b := by
  show (fyAux (a :: b :: rest) (fun _ => 0) 0
      ((a :: b :: rest).length - 1))[0]? = _
  have h1 : (a :: b :: rest).length - 1 = rest.length + 1 := by
    simp
  rw [h1, fyAux_zero_get0 rest.length _ 0 (by simp)]
  simp

/-! ## Facts about keep-first deduplication. -/

/-- Deduplication only keeps elements of the input. -/
theorem mem_of_mem_dedupByAux {k : α → β} [DecidableEq β] :
    ∀ (l : List α) (seen : List β) (a : α),
      a ∈ dedupByAux k l seen → a ∈ l := by
  intro l
  induction l with
  | nil => intro seen a h; simp [dedupByAux] at h
  | cons x xs ih =>
    intro seen a h
    unfold dedupByAux at h
    by_cases hx : k x ∈ seen
    · rw [if_pos hx] at h
      exact List.mem_cons_of_mem x (ih _ a h)
    · rw [if_neg hx] at h
      rcases List.mem_cons.mp h with h | h
      · exact h ▸ List.mem_cons_self x xs
      · exact List.mem_cons_of_mem x (ih _ a h)

/-- Kept elements have keys outside the seen set. -/
theorem key_not_seen_of_mem_dedupByAux {k : α → β} [DecidableEq β] :
    ∀ (l : List α) (seen : List β) (a : α),
      a ∈ dedupByAux k l seen → k a ∉ seen := by
  intro l
  induction l with
  | nil => intro seen a h; simp [dedupByAux] at h
  | cons x xs ih =>
    intro seen a h
    unfold dedupByAux at h
    by_cases hx : k x ∈ seen
    · rw [if_pos hx] at h
      exact ih _ a h
    · rw [if_neg hx] at h
      rcases List.mem_cons.mp h with h | h
      · exact h ▸ hx
      · intro hmem
        exact ih _ a h (List.mem_cons_of_mem _ hmem)

/-- When the keys of the input are pairwise distinct and disjoint from
the seen set, deduplication is the identity. -/
theorem dedupByAux_eq_self {k : α → β} [DecidableEq β] :
    ∀ (l : List α) (seen : List β), (l.map k).Nodup →
      (∀ x ∈ l, k x ∉ seen) → dedupByAux k l seen = l := by
  intro l
  induction l with
  | nil => intro seen _ _; rfl
  | cons x xs ih =>
    intro seen hnd hdis
    unfold dedupByAux
    rw [if_neg (hdis x (List.mem_cons_self x xs))]
    rw [List.map_cons, List.nodup_cons] at hnd
    congr 1
    refine ih _ hnd.2 ?_
    intro y hy hmem
    rcases List.mem_cons.mp hmem with h | h
    · exact hnd.1 (h ▸ List.mem_map_of_mem k hy)
    · exact hdis y (List.mem_cons_of_mem x hy) h

/-- Membership in keep-first deduplication for an injective key. -/
theorem mem_dedupByAux_inj {k : α → β} [DecidableEq β]
    (hinj : ∀ x y, k x = k y → x = y) :
    ∀ (l : List α) (seen : List β) (a : α),
      a ∈ dedupByAux k l seen ↔ a ∈ l ∧ k a ∉ seen := by
  intro l
  induction l with
  | nil => intro seen a; simp [dedupByAux]
  | cons x xs ih =>
    intro seen a
    unfold dedupByAux
    by_cases hx : k x ∈ seen
    · rw [if_pos hx, ih]
      constructor
      · rintro ⟨h1, h2⟩
        exact ⟨List.mem_cons_of_mem x h1, h2⟩
      · rintro ⟨h1, h2⟩
        rcases List.mem_cons.mp h1 with h | h
        · exact absurd (h ▸ hx) h2
        · exact ⟨h, h2⟩
    · rw [if_neg hx, List.mem_cons, ih]
      constructor
      · rintro (h | ⟨h1, h2⟩)
        · exact ⟨h ▸ List.mem_cons_self x xs, h ▸ hx⟩
        · refine ⟨List.mem_cons_of_mem x h1, fun hmem => h2 ?_⟩
          exact List.mem_cons_of_mem _ hmem
      · rintro ⟨h1, h2⟩
        rcases List.mem_cons.mp h1 with h | h
        · exact Or.inl h
        · by_cases hk : k a = k x
          · exact Or.inl (hinj a x hk)
          · refine Or.inr ⟨h, fun hmem => ?_⟩
            rcases List.mem_cons.mp hmem with hh | hh
            · exact hk hh
            · exact h2 hh

/-- The keys of a deduplicated list are pairwise distinct. -/
theorem nodup_keys_dedupByAux {k : α → β} [DecidableEq β] :
    ∀ (l : List α) (seen : List β), ((dedupByAux k l seen).map k).Nodup := by
  intro l
  induction l with
  | nil => intro seen; simp [dedupByAux]
  | cons x xs ih =>
    intro seen
    unfold dedupByAux
    by_cases hx : k x ∈ seen
    · rw [if_pos hx]; exact ih _
    · rw [if_neg hx, List.map_cons, List.nodup_cons]
      refine ⟨?_, ih _⟩
      intro hmem
      rcases List.mem_map.mp hmem with ⟨a, ha, hka⟩
      exact key_not_seen_of_mem_dedupByAux _ _ a ha
        (hka ▸ List.mem_cons_self _ _)

/-- A list whose keys were all seen already deduplicates to nothing. -/
theorem dedupByAux_nil_of_seen {k : α → β} [DecidableEq β] :
    ∀ (l : List α) (seen : List β), (∀ y ∈ l, k y ∈ seen) →
      dedupByAux k l seen = [] := by
  intro l
  induction l with
  | nil => intro seen _; rfl
  | cons x xs ih =>
    intro seen h
    unfold dedupByAux
    rw [if_pos (h x (List.mem_cons_self x xs))]
    exact ih _ fun y hy => h y (List.mem_cons_of_mem x hy)

/-- Appending elements that already occur (or whose key was seen)
changes nothing. -/
theorem dedupByAux_append_absorb {k : α → β} [DecidableEq β] :
    ∀ (xs : List α) (seen : List β) (ys : List α),
      (∀ y ∈ ys, y ∈ xs ∨ k y ∈ seen) →
      dedupByAux k (xs ++ ys) seen = dedupByAux k xs seen := by
  intro xs
  induction xs with
  | nil =>
    intro seen ys h
    simp only [List.nil_append]
    exact dedupByAux_nil_of_seen ys seen fun y hy => by
      rcases h y hy with hc | hc
      · exact absurd hc (List.not_mem_nil y)
      · exact hc
  | cons x xs ih =>
    intro seen ys h
    show dedupByAux k (x :: (xs ++ ys)) seen = dedupByAux k (x :: xs) seen
    unfold dedupByAux
    by_cases hx : k x ∈ seen
    · rw [if_pos hx, if_pos hx]
      refine ih _ ys fun y hy => ?_
      rcases h y hy with hc | hc
      · rcases List.mem_cons.mp hc with hc' | hc'
        · exact Or.inr (hc' ▸ hx)
        · exact Or.inl hc'
      · exact Or.inr hc
    · rw [if_neg hx, if_neg hx]
      congr 1
      refine ih _ ys fun y hy => ?_
      rcases h y hy with hc | hc
      · rcases List.mem_cons.mp hc with hc' | hc'
        · exact Or.inr (hc' ▸ List.mem_cons_self _ _)
        · exact Or.inl hc'
      · exact Or.inr (List.mem_cons_of_mem _ hc)

/-- Membership in `dedupBy` for an injective key. -/
theorem mem_dedupBy_inj {k : α → β} [DecidableEq β]
    (hinj : ∀ x y, k x = k y → x = y) (l : List α) (a : α) :
    a ∈ dedupBy k l ↔ a ∈ l := by
  unfold dedupBy
  rw [mem_dedupByAux_inj hinj]
  simp

/-- `dedupBy` is the identity when all keys are distinct. -/
theorem dedupBy_eq_self {k : α → β} [DecidableEq β] (l : List α)
    (h : (l.map k).Nodup) : dedupBy k l = l :=
  dedupByAux_eq_self l [] h (by simp)

/-- The keys of a `dedupBy` result are pairwise distinct. -/
theorem nodup_keys_dedupBy (k : α → β) [DecidableEq β] (l : List α) :
    ((dedupBy k l).map k).Nodup :=
  nodup_keys_dedupByAux l []

/-- Appending elements that already occur changes nothing. -/
theorem dedupBy_append_absorb {k : α → β} [DecidableEq β]
    (xs ys : List α) (h : ∀ y ∈ ys, y ∈ xs) :
    dedupBy k (xs ++ ys) = dedupBy k xs :=
  dedupByAux_append_absorb xs [] ys fun y hy => Or.inl (h y hy)

/-- The source's deduplication key determines the whole triple. -/
theorem ckey_inj : ∀ x y : Conclusion, ckey x = ckey y → x = y := by
  intro x y h
  cases x
  cases y
  simpa [ckey, Prod.ext_iff] using h

/-! ## The expansion rules, stated the way the spec words them. -/

/-- The spec's per-premise conversion rules (§4.2): `All(A,B)`
contributes `Some(A,B)` and `Some(B,A)`; `Some(A,B)` contributes
`Some(B,A)`; `None(A,B)` contributes `None(B,A)`; `SomeNot` contributes
nothing. -/
def specDerives (s c : Conclusion) : Prop :=
  (s.type = QType.all ∧
    (c = ⟨QType.some, s.subject, s.object⟩ ∨
      c = ⟨QType.some, s.object, s.subject⟩)) ∨
  (s.type = QType.some ∧ c = ⟨QType.some, s.object, s.subject⟩) ∨
  (s.type = QType.none ∧ c = ⟨QType.none, s.object, s.subject⟩)

/-- The code's per-premise pushes realize exactly the spec's rules. -/
theorem mem_deriveStmt (s c : Conclusion) :
    c ∈ deriveStmt s ↔ specDerives s c := by
  cases h : s.type <;>
    simp [deriveStmt, specDerives, h]

/-- Membership in the expansion, via injectivity of the key. -/
theorem mem_expand (item : QuizItem) (c : Conclusion) :
    c ∈ expandCorrectAnswers item ↔
      c ∈ item.correct ++ deriveStmt item.statements.1 ++
        deriveStmt item.statements.2 :=
  mem_dedupBy_inj ckey_inj _ c

/-- C1: for every template, the entailment expansion consists of the
canonical `correct` list united with the conclusions each premise
contributes individually (`All(A,B)` gives `Some(A,B)` and `Some(B,A)`,
`Some(A,B)` gives `Some(B,A)`, `None(A,B)` gives `None(B,A)`, `SomeNot`
gives nothing), deduplicated by `(kind, subject, object)` triple; the
Barbara template expands to exactly
`{All(X,Z), Some(X,Y), Some(Y,X), Some(Y,Z), Some(Z,Y)}`. -/
theorem claim1_expand_rules :
    (∀ (item : QuizItem) (c : Conclusion),
      c ∈ expandCorrectAnswers item ↔
        c ∈ item.correct ∨ ∃ s ∈ stmts item, specDerives s c) ∧
    (∀ item : QuizItem, ((expandCorrectAnswers item).map ckey).Nodup) ∧
    expandCorrectAnswers barbara =
      [⟨QType.all, Var.X, Var.Z⟩, ⟨QType.some, Var.X, Var.Y⟩,
        ⟨QType.some, Var.Y, Var.X⟩, ⟨QType.some, Var.Y, Var.Z⟩,
        ⟨QType.some, Var.Z, Var.Y⟩] := by
  refine ⟨?_, fun item => nodup_keys_dedupBy _ _, by decide⟩
  intro item c
  rw [mem_expand]
  simp only [List.mem_append, mem_deriveStmt, stmts, List.mem_cons,
    List.not_mem_nil, or_false, exists_eq_or_imp, exists_eq_left]
  tauto

/-- C9: the expansion is idempotent — replacing the canonical list by
the expansion and expanding again returns the very same list — and its
entries have pairwise distinct `(kind, subject, object)` triples. -/
theorem claim9_expand_idempotent :
    ∀ item : QuizItem,
      expandCorrectAnswers ⟨item.statements, expandCorrectAnswers item⟩ =
        expandCorrectAnswers item ∧
      ((expandCorrectAnswers item).map ckey).Nodup := by
  intro item
  refine ⟨?_, nodup_keys_dedupBy _ _⟩
  show dedupBy ckey
      (expandCorrectAnswers item ++ deriveStmt item.statements.1 ++
        deriveStmt item.statements.2) = expandCorrectAnswers item
  have hmem : ∀ c ∈ deriveStmt item.statements.1 ++
      deriveStmt item.statements.2, c ∈ expandCorrectAnswers item := by
    intro c hc
    rw [mem_expand, List.append_assoc, List.mem_append]
    exact Or.inr hc
  rw [List.append_assoc, dedupBy_append_absorb _ _ hmem]
  exact dedupBy_eq_self _ (nodup_keys_dedupBy _ _)

/-- C5: in multi-answer mode a candidate is labelled correct iff some
expansion entry matches its triple exactly, or its kind is `Some` and
the reversed triple `(Some, object, subject)` is in the expansion; in
particular for kind `None` only the exact match counts. -/
theorem claim5_label_rule :
    ∀ (exp : List Conclusion) (c : Conclusion),
      (multiLabel exp c = true ↔
        c ∈ exp ∨ (c.type = QType.some ∧
          Conclusion.mk QType.some c.object c.subject ∈ exp)) ∧
      (c.type = QType.none → (multiLabel exp c = true ↔ c ∈ exp)) := by
  intro exp c
  have main : multiLabel exp c = true ↔
      c ∈ exp ∨ (c.type = QType.some ∧
        Conclusion.mk QType.some c.object c.subject ∈ exp) := by
    unfold multiLabel
    rw [List.any_eq_true]
    constructor
    · rintro ⟨e, he, hcond⟩
      simp only [Bool.and_eq_true, Bool.or_eq_true, beq_iff_eq] at hcond
      rcases hcond with ⟨hty, ⟨hs, ho⟩ | ⟨⟨hs, ho⟩, hsome⟩⟩
      · left
        have : e = c := by
          cases e; cases c
          simp_all
        exact this ▸ he
      · right
        refine ⟨hty.symm.trans hsome, ?_⟩
        have : e = Conclusion.mk QType.some c.object c.subject := by
          cases e; cases c
          simp_all
        exact this ▸ he
    · rintro (hc | ⟨hty, hrev⟩)
      · exact ⟨c, hc, by simp⟩
      · exact ⟨Conclusion.mk QType.some c.object c.subject, hrev, by
          simp [hty]⟩
  refine ⟨main, fun hnone => ?_⟩
  rw [main]
  constructor
  · rintro (h | ⟨hsome, _⟩)
    · exact h
    · rw [hnone] at hsome
      exact absurd hsome (by decide)
  · exact Or.inl

/-! ## The rejection-sampling loop. -/

/-- Whatever the loop returns passed the `isValid` check. -/
theorem pickValid_isValid :
    ∀ (fuel : Nat) (data : List QuizItem) (r : Nat → Nat)
      (p : QuizItem × Nat), pickValid fuel data r = Option.some p →
        isValid p.1 = true := by
  intro fuel
  induction fuel with
  | zero => intro data r p h; cases h
  | succ fuel ih =>
    intro data r p h
    unfold pickValid at h
    cases hi : getRandomElement data (r 0) with
    | none => rw [hi] at h; cases h
    | some item =>
      rw [hi] at h
      dsimp only at h
      by_cases hv : isValid item
      · rw [if_pos hv] at h
        cases h
        exact hv
      · rw [if_neg hv] at h
        cases hq : pickValid fuel data (shiftStream r 1) with
        | none => rw [hq] at h; cases h
        | some q =>
          rw [hq] at h
          cases h
          exact ih data _ q hq

/-- C4, counterexample: the spec's converging template is selectable in
multi-answer mode — with the template at index 1 of the library and a
stream that always returns 1, the rejection-sampling loop picks it on
the first iteration, because its expansion contains the `Some`
conclusions derived from its two `All` premises and is therefore not
trivial. -/
theorem claim4_counterexample :
    pickValid 1 [barbara, convergingTemplate] (fun _ => 1) =
      Option.some (convergingTemplate, 1) ∧
    isValid convergingTemplate = true := by
  constructor
  · rfl
  · decide

/-- C4, amended: `isValid` (the spec's `isNonTrivial` applied to the
expansion) is true iff the expansion is non-empty and not every entry
has kind `Unknown`; every template the sampling loop yields satisfies
it; but the converging template `{All(Y,X), All(Z,X)}` with all-`Unknown`
canonical conclusions satisfies it too (its expansion gains derived
`Some` entries), so multi-answer mode does not reject it. -/
theorem claim4_amended :
    (∀ item : QuizItem, isValid item = true ↔
      (expandCorrectAnswers item ≠ [] ∧
        ¬ ∀ c ∈ expandCorrectAnswers item, c.type = QType.unknown)) ∧
    (∀ (fuel : Nat) (data : List QuizItem) (r : Nat → Nat)
      (p : QuizItem × Nat), pickValid fuel data r = Option.some p →
        isValid p.1 = true) ∧
    isValid convergingTemplate = true := by
  refine ⟨?_, pickValid_isValid, by decide⟩
  intro item
  unfold isValid
  simp [List.all_eq_true, List.length_pos]

/-- C4, witness for the amended claim's hypotheses: the loop applied to
a Barbara-only library returns Barbara, which indeed passes the check. -/
theorem claim4_witness :
    pickValid 1 [barbara] (fun _ => 0) = Option.some (barbara, 1) ∧
    isValid barbara = true :=
  ⟨rfl, claim4_amended.2.1 1 [barbara] (fun _ => 0) (barbara, 1) rfl⟩

/-- C8: the source's do-while rejection loop has no retry bound.  On a
library whose only template is trivial (the some_none/some_none chain
with all-`Unknown` conclusions, which the test suite requires the real
library to contain), the loop body never exits no matter how many
iterations are unfolded and for every random stream —
`generateMultiQuiz` never returns instead of failing with a fatal
`EmptyTemplateLibrary`-style error. -/
theorem claim8_loop_unbounded :
    ∀ (t : QType → String) (terms : List String) (fuel : Nat)
      (r : Nat → Nat),
      pickValid fuel [trivTemplate] r = Option.none ∧
      generateMultiQuiz [trivTemplate] t terms fuel r = Option.none := by
  have hpick : ∀ (fuel : Nat) (r : Nat → Nat),
      pickValid fuel [trivTemplate] r = Option.none := by
    intro fuel
    induction fuel with
    | zero => intro r; rfl
    | succ fuel ih =>
      intro r
      unfold pickValid
      have hget : getRandomElement [trivTemplate] (r 0) =
          Option.some trivTemplate := by
        show [trivTemplate][r 0 % 1]? = Option.some trivTemplate
        rw [Nat.mod_one]
        rfl
      rw [hget]
      dsimp only
      rw [if_neg (by decide : ¬ isValid trivTemplate = true), ih]
      rfl
  intro t terms fuel r
  refine ⟨hpick fuel r, ?_⟩
  unfold generateMultiQuiz
  cases termMapOf (shuffleList terms r) with
  | none => rfl
  | some tm =>
    rw [hpick fuel (shiftStream r (terms.length - 1))]

/-! ## The truncation-repair branch (multi-quiz lines 146–152). -/

/-- C7: when the repair branch runs (the truncated six answers contain
no correct one), the delivered list is exactly the first five truncated
answers followed by the spliced-in correct answer: line 151's
`shuffle(finalAnswers)` copies the array and discards the copy, so the
final six are not reshuffled and the spliced answer always sits in the
last position. -/
theorem claim7_repair_keeps_last :
    ∀ (pool : List Answer) (r : Nat → Nat),
      (pool.take 6).any Answer.isCorrect = false →
      pool.filter Answer.isCorrect ≠ [] →
      ∃ c0, finalizeAnswers pool r =
          Option.some ((pool.take 6).dropLast ++ [c0]) ∧
        c0.isCorrect = true := by
  intro pool r hno hfil
  unfold finalizeAnswers
  have hcond : ¬ ((pool.take 6).any Answer.isCorrect = true) := by
    rw [hno]
    exact Bool.false_ne_true
  dsimp only
  rw [if_neg hcond]
  have hperm := shuffleList_perm (pool.filter Answer.isCorrect) r
  have hne : shuffleList (pool.filter Answer.isCorrect) r ≠ [] := by
    intro hnil
    have hp := hperm.symm
    rw [hnil] at hp
    exact hfil (List.Perm.eq_nil hp)
  cases hh : (shuffleList (pool.filter Answer.isCorrect) r).head? with
  | none => exact absurd (List.head?_eq_none_iff.mp hh) hne
  | some c0 =>
    refine ⟨c0, rfl, ?_⟩
    have hc0 : c0 ∈ pool.filter Answer.isCorrect :=
      hperm.mem_iff.mp (List.mem_of_mem_head? hh)
    exact (List.mem_filter.mp hc0).2

/-- C7, witness: a concrete pool whose first six answers are all
incorrect; the repair branch delivers the spliced correct answer in the
last slot. -/
def c7Pool : List Answer :=
  [⟨"a1", false⟩, ⟨"a2", false⟩, ⟨"a3", false⟩, ⟨"a4", false⟩,
    ⟨"a5", false⟩, ⟨"a6", false⟩, ⟨"a7", true⟩]

/-- C7, witness theorem. -/
theorem claim7_witness :
    (c7Pool.take 6).any Answer.isCorrect = false ∧
    c7Pool.filter Answer.isCorrect ≠ [] ∧
    ∃ c0, finalizeAnswers c7Pool (fun _ => 0) =
        Option.some ((c7Pool.take 6).dropLast ++ [c0]) ∧
      c0.isCorrect = true :=
  ⟨by decide, by decide,
    claim7_repair_keeps_last c7Pool (fun _ => 0) (by decide) (by decide)⟩

/-! ## Term assignment (claim C6). -/

/-- The shared core of C6: shuffling with the all-zeros stream puts the
second vocabulary entry first, so the assignment differs from the
unshuffled first three terms. -/
theorem termAssignment_zero (a b c : String) (rest : List String)
    (hab : a ≠ b) :
    ∃ tm, termMapOf (shuffleList (a :: b :: c :: rest) (fun _ => 0)) =
        Option.some tm ∧ tm Var.X = b ∧ tm Var.X ≠ a := by
  have hperm := shuffleList_perm (a :: b :: c :: rest) (fun _ => 0)
  have h0 := shuffleList_zero_head a b (c :: rest)
  rcases hs : shuffleList (a :: b :: c :: rest) (fun _ => 0) with
    _ | ⟨x, _ | ⟨y, _ | ⟨z, l3⟩⟩⟩
  · rw [hs] at hperm
    have := hperm.length_eq
    simp at this
  · rw [hs] at hperm
    have := hperm.length_eq
    simp at this
  · rw [hs] at hperm
    have := hperm.length_eq
    simp at this
  · rw [hs] at h0
    rw [List.getElem?_cons_zero] at h0
    have hx : x = b := by
      cases h0
      rfl
    refine ⟨_, rfl, ?_, ?_⟩
    · show x = b
      exact hx
    · show x ≠ a
      rw [hx]
      exact fun h => hab h.symm

/-- C6: the component single-answer and multi-answer implementations
assign the first three entries of the shuffled vocabulary to `X`, `Y`,
`Z`, and under the all-zeros stream the assignment differs from the
unshuffled first three terms; but the API-route single-answer
implementation never shuffles — `quiz.ts:65` discards the copy returned
by that file's copying `shuffle` — so its assignment equals the
unshuffled `termMapOf terms` for every random stream, and `X` always
receives the first vocabulary entry. -/
theorem claim6_assignment_divergence :
    (∀ (terms : List String) (r : Nat → Nat),
      apiTermAssignment terms r = termMapOf terms) ∧
    (∀ (a b c : String) (rest : List String) (r : Nat → Nat),
      ∃ tm, apiTermAssignment (a :: b :: c :: rest) r = Option.some tm ∧
        tm Var.X = a) ∧
    (∀ (a b c : String) (rest : List String), a ≠ b →
      (∃ tm, componentTermAssignment (a :: b :: c :: rest) (fun _ => 0) =
          Option.some tm ∧ tm Var.X = b ∧ tm Var.X ≠ a) ∧
      (∃ tm, multiTermAssignment (a :: b :: c :: rest) (fun _ => 0) =
          Option.some tm ∧ tm Var.X = b ∧ tm Var.X ≠ a)) := by
  refine ⟨fun terms r => rfl, ?_, ?_⟩
  · intro a b c rest r
    exact ⟨_, rfl, rfl⟩
  · intro a b c rest hab
    have key := termAssignment_zero a b c rest hab
    exact ⟨key, key⟩

/-- C6, witness: on the modelled English vocabulary the API route
assigns the unshuffled `"cats"` to `X` no matter the stream, while the
component and multi-answer implementations under the all-zeros stream
assign `"dogs"`. -/
theorem claim6_divergence_witness :
    (apiTermAssignment ["cats", "dogs", "birds"] (fun _ => 0) =
      termMapOf ["cats", "dogs", "birds"]) ∧
    (∃ tm, apiTermAssignment ["cats", "dogs", "birds"] (fun _ => 5) =
        Option.some tm ∧ tm Var.X = "cats") ∧
    (∃ tm, componentTermAssignment ["cats", "dogs", "birds"] (fun _ => 0) =
        Option.some tm ∧ tm Var.X = "dogs" ∧ tm Var.X ≠ "cats") ∧
    (∃ tm, multiTermAssignment ["cats", "dogs", "birds"] (fun _ => 0) =
        Option.some tm ∧ tm Var.X = "dogs" ∧ tm Var.X ≠ "cats") :=
  ⟨claim6_assignment_divergence.1 ["cats", "dogs", "birds"] (fun _ => 0),
    claim6_assignment_divergence.2.1 "cats" "dogs" "birds" [] (fun _ => 5),
    (claim6_assignment_divergence.2.2 "cats" "dogs" "birds" []
      (by decide)).1,
    (claim6_assignment_divergence.2.2 "cats" "dogs" "birds" []
      (by decide)).2⟩

/-! ## Anatomy of the single-answer generator. -/

/-- A random pick from a non-empty list succeeds and returns a member. -/
theorem getRandomElement_some (l : List α) (k : Nat) (h : l ≠ []) :
    ∃ a, getRandomElement l k = Option.some a ∧ a ∈ l := by
  unfold getRandomElement
  have hlt : k % l.length < l.length :=
    Nat.mod_lt _ (List.length_pos.mpr h)
  rw [List.getElem?_eq_getElem hlt]
  exact ⟨_, rfl, List.getElem_mem hlt⟩

/-- A vocabulary of three or more entries yields a term map. -/
theorem termMapOf_some (l : List String) (h : 3 ≤ l.length) :
    ∃ tm, termMapOf l = Option.some tm := by
  rcases l with _ | ⟨x, _ | ⟨y, _ | ⟨z, l3⟩⟩⟩
  · simp at h
  · simp at h
  · simp at h
  · exact ⟨_, rfl⟩

/-- Full decomposition of a single-answer generation run: the chosen
template, conclusion and term map, the four shuffled non-`unknown`
candidates, and the delivered output with the `unknown` candidate
appended last. -/
theorem generateQuiz_anatomy (data : List QuizItem) (t : QType → String)
    (terms : List String) (r : Nat → Nat)
    (hdata : data ≠ []) (hcorr : ∀ item ∈ data, item.correct ≠ [])
    (hlen : 3 ≤ terms.length) :
    ∃ item c tm others,
      chosenItem data r = Option.some item ∧ item ∈ data ∧
      chosenConclusion item terms r = Option.some c ∧ c ∈ item.correct ∧
      termMapOf (shuffleList terms (shiftStream r 1)) = Option.some tm ∧
      List.Perm others
        [TAnswer.mk QType.all
            (render (t QType.all) (tm c.subject) (tm c.object))
            (QType.all == c.type),
          TAnswer.mk QType.none
            (render (t QType.none) (tm c.subject) (tm c.object))
            (QType.none == c.type),
          TAnswer.mk QType.some
            (render (t QType.some) (tm c.subject) (tm c.object))
            (QType.some == c.type),
          TAnswer.mk QType.some_none
            (render (t QType.some_none) (tm c.subject) (tm c.object))
            (QType.some_none == c.type)] ∧
      generateQuiz data t terms r = Option.some
        ⟨(stmts item).map fun s =>
            render (t s.type) (tm s.subject) (tm s.object),
          (others ++ [TAnswer.mk QType.unknown
              (render (t QType.unknown) (tm c.subject) (tm c.object))
              (QType.unknown == c.type)]).map fun a =>
            ⟨a.sentence, a.isCorrect⟩⟩ := by
  obtain ⟨item, hitem, hmem⟩ := getRandomElement_some data (r 0) hdata
  have hlen2 : 3 ≤ (shuffleList terms (shiftStream r 1)).length := by
    rw [(shuffleList_perm _ _).length_eq]
    exact hlen
  obtain ⟨tm, htm⟩ := termMapOf_some _ hlen2
  obtain ⟨c, hcc, hcmem⟩ :=
    getRandomElement_some item.correct (r (1 + (terms.length - 1)))
      (hcorr item hmem)
  refine ⟨item, c, tm,
    shuffleList
      [TAnswer.mk QType.all
          (render (t QType.all) (tm c.subject) (tm c.object))
          (QType.all == c.type),
        TAnswer.mk QType.none
          (render (t QType.none) (tm c.subject) (tm c.object))
          (QType.none == c.type),
        TAnswer.mk QType.some
          (render (t QType.some) (tm c.subject) (tm c.object))
          (QType.some == c.type),
        TAnswer.mk QType.some_none
          (render (t QType.some_none) (tm c.subject) (tm c.object))
          (QType.some_none == c.type)]
      (shiftStream r (1 + (terms.length - 1) + 1)),
    hitem, hmem, hcc, hcmem, htm, shuffleList_perm _ _, ?_⟩
  unfold generateQuiz
  rw [show chosenItem data r = Option.some item from hitem]
  dsimp only
  rw [htm]
  dsimp only
  rw [show chosenConclusion item terms r = Option.some c from hcc]
  dsimp only
  rfl

/-- C2: for every library, pattern table, vocabulary of three or more
terms and random stream, the single-answer output exists and has exactly
five answers, exactly one of them correct, and its last answer is the
`unknown`-kind sentence rendered on the chosen conclusion's
subject/object pair (the `unknown` answer is appended after the
shuffle, never repositioned). -/
theorem claim2_single_shape :
    ∀ (data : List QuizItem) (t : QType → String) (terms : List String)
      (r : Nat → Nat),
      data ≠ [] → (∀ item ∈ data, item.correct ≠ []) →
      3 ≤ terms.length →
      ∃ out item c tm,
        generateQuiz data t terms r = Option.some out ∧
        chosenItem data r = Option.some item ∧ item ∈ data ∧
        chosenConclusion item terms r = Option.some c ∧ c ∈ item.correct ∧
        termMapOf (shuffleList terms (shiftStream r 1)) = Option.some tm ∧
        out.answers.length = 5 ∧
        out.answers.countP Answer.isCorrect = 1 ∧
        out.answers.getLast? = Option.some
          ⟨render (t QType.unknown) (tm c.subject) (tm c.object),
            QType.unknown == c.type⟩ := by
  intro data t terms r hdata hcorr hlen
  obtain ⟨item, c, tm, others, hitem, hmem, hcc, hcmem, htm, hperm, hgen⟩ :=
    generateQuiz_anatomy data t terms r hdata hcorr hlen
  refine ⟨_, item, c, tm, hgen, hitem, hmem, hcc, hcmem, htm, ?_, ?_, ?_⟩
  · show ((others ++ [_]).map fun (a : TAnswer) => (⟨a.sentence, a.isCorrect⟩ : Answer)).length = 5
    rw [List.length_map, List.length_append, hperm.length_eq]
    rfl
  · show List.countP Answer.isCorrect
        ((others ++ [_]).map fun (a : TAnswer) => (⟨a.sentence, a.isCorrect⟩ : Answer)) = 1
    rw [List.countP_map, List.countP_append, hperm.countP_eq]
    cases hc : c.type <;> rfl
  · show (((others ++ [_]).map fun (a : TAnswer) =>
        (⟨a.sentence, a.isCorrect⟩ : Answer)).getLast?) = _
    rw [List.map_append]
    simp only [List.map_cons, List.map_nil]
    rw [List.getLast?_concat]

/-- C10: in single-answer mode the last (`unknown`) answer is correct
iff the chosen canonical conclusion has kind `unknown`; whenever the
chosen kind is not `unknown`, the unique correct answer sits among the
first four (shuffled) positions — the position of the correct answer
reveals whether the quiz's answer is the no-valid-conclusion option. -/
theorem claim10_last_reveals :
    ∀ (data : List QuizItem) (t : QType → String) (terms : List String)
      (r : Nat → Nat),
      data ≠ [] → (∀ item ∈ data, item.correct ≠ []) →
      3 ≤ terms.length →
      ∃ out item c last,
        generateQuiz data t terms r = Option.some out ∧
        chosenItem data r = Option.some item ∧ item ∈ data ∧
        chosenConclusion item terms r = Option.some c ∧ c ∈ item.correct ∧
        out.answers.getLast? = Option.some last ∧
        (last.isCorrect = true ↔ c.type = QType.unknown) ∧
        (c.type ≠ QType.unknown →
          (out.answers.take 4).countP Answer.isCorrect = 1) := by
  intro data t terms r hdata hcorr hlen
  obtain ⟨item, c, tm, others, hitem, hmem, hcc, hcmem, htm, hperm, hgen⟩ :=
    generateQuiz_anatomy data t terms r hdata hcorr hlen
  have hlenOthers : others.length = 4 := by
    rw [hperm.length_eq]
    rfl
  refine ⟨_, item, c,
    ⟨render (t QType.unknown) (tm c.subject) (tm c.object),
      QType.unknown == c.type⟩, hgen, hitem, hmem, hcc, hcmem, ?_, ?_, ?_⟩
  · show (((others ++ [_]).map fun (a : TAnswer) =>
        (⟨a.sentence, a.isCorrect⟩ : Answer)).getLast?) = _
    rw [List.map_append]
    simp only [List.map_cons, List.map_nil]
    rw [List.getLast?_concat]
  · show ((QType.unknown == c.type) = true ↔ c.type = QType.unknown)
    rw [beq_iff_eq]
    exact eq_comm
  · intro hne
    show (((others ++ [_]).map fun (a : TAnswer) =>
        (⟨a.sentence, a.isCorrect⟩ : Answer)).take 4).countP
        Answer.isCorrect = 1
    rw [List.map_append]
    have hlenMap : ((others.map fun (a : TAnswer) =>
        (⟨a.sentence, a.isCorrect⟩ : Answer))).length = 4 := by
      rw [List.length_map, hlenOthers]
    rw [List.take_append_of_le_length (by rw [hlenMap]),
      List.take_of_length_le (by rw [hlenMap]), List.countP_map,
      hperm.countP_eq]
    cases hc : c.type with
    | unknown => exact absurd hc hne
    | all => rfl
    | none => rfl
    | some => rfl
    | some_none => rfl

/-- C2, witness output: the single-answer run on a Barbara-only library
with the modelled English table and the all-zeros stream. -/
def c2Out : QuizOut :=
  (generateQuiz [barbara] enT enTerms (fun _ => 0)).getD ⟨[], []⟩

/-- C2, witness theorem. -/
theorem claim2_witness :
    generateQuiz [barbara] enT enTerms (fun _ => 0) = Option.some c2Out ∧
    c2Out.answers.length = 5 ∧
    c2Out.answers.countP Answer.isCorrect = 1 := by
  obtain ⟨out, item, c, tm, hgen, _hci, _hm, _hcc, _hcm, _htm, h5, hcnt,
      _hlast⟩ :=
    claim2_single_shape [barbara] enT enTerms (fun _ => 0) (by decide)
      (by decide) (by decide)
  have he : out = c2Out := by
    unfold c2Out
    rw [hgen]
    rfl
  rw [← he]
  exact ⟨hgen, h5, hcnt⟩

/-- C10, witness output. -/
def c10Out : QuizOut :=
  (generateQuiz [barbara] deT deTerms (fun _ => 0)).getD ⟨[], []⟩

/-- C10, witness theorem: on the Barbara library the chosen conclusion
is `All(X,Z)`, so the last answer is incorrect and the unique correct
answer is among the first four. -/
theorem claim10_witness :
    generateQuiz [barbara] deT deTerms (fun _ => 0) =
      Option.some c10Out ∧
    (∃ last, c10Out.answers.getLast? = Option.some last ∧
      last.isCorrect = false) ∧
    (c10Out.answers.take 4).countP Answer.isCorrect = 1 := by
  obtain ⟨out, item, c, last, hgen, hci, _hm, hcc, _hcm, hlast, hiff,
      htake⟩ :=
    claim10_last_reveals [barbara] deT deTerms (fun _ => 0) (by decide)
      (by decide) (by decide)
  have he : out = c10Out := by
    unfold c10Out
    rw [hgen]
    rfl
  have hitem : item = barbara := by
    have : Option.some item = Option.some barbara := by
      rw [← hci]
      rfl
    cases this
    rfl
  have hc : c = Conclusion.mk QType.all Var.X Var.Z := by
    rw [hitem] at hcc
    have : Option.some c =
        Option.some (Conclusion.mk QType.all Var.X Var.Z) := by
      rw [← hcc]
      rfl
    cases this
    rfl
  have hcty : c.type ≠ QType.unknown := by
    rw [hc]
    decide
  refine ⟨he ▸ hgen, ⟨last, he ▸ hlast, ?_⟩, he ▸ htake hcty⟩
  have : ¬ last.isCorrect = true := fun h => hcty (hiff.mp h)
  exact Bool.not_eq_true _ ▸ this

/-! ## The multi-answer candidate space. -/

/-- Pointwise sublists lift through `flatMap`. -/
theorem flatMap_sublist {γ : Type _} (l : List γ) (f g : γ → List α)
    (h : ∀ a ∈ l, (f a).Sublist (g a)) :
    (l.flatMap f).Sublist (l.flatMap g) := by
  induction l with
  | nil => exact List.Sublist.refl _
  | cons x xs ih =>
    rw [List.flatMap_cons, List.flatMap_cons]
    exact List.Sublist.append (h x (List.mem_cons_self x xs))
      (ih fun a ha => h a (List.mem_cons_of_mem x ha))

/-- The full `(type, subject, object)` product space the candidate loops
range over. -/
def prodList : List Conclusion :=
  allTypes.flatMap fun ty =>
    vars.flatMap fun s =>
      vars.flatMap fun o => [⟨ty, s, o⟩]

/-- The candidate list always embeds in the product space. -/
theorem candList_sublist (item : QuizItem) :
    (candList item).Sublist prodList := by
  unfold candList prodList
  refine flatMap_sublist _ _ _ fun ty _ => ?_
  by_cases hty : ty = QType.unknown
  · rw [if_pos hty]
    exact List.nil_sublist _
  · rw [if_neg hty]
    refine flatMap_sublist _ _ _ fun s _ => ?_
    refine flatMap_sublist _ _ _ fun o _ => ?_
    by_cases hc : s ≠ o ∧ (ty, s, o) ∉ baseKeysOf item
    · rw [if_pos hc]
    · rw [if_neg hc]
      exact List.nil_sublist _

/-- The product space has no duplicates. -/
theorem prodList_nodup : prodList.Nodup := by decide

/-- The candidate list has no duplicate triples. -/
theorem candList_nodup (item : QuizItem) : (candList item).Nodup :=
  List.Nodup.sublist (candList_sublist item) prodList_nodup

/-- Membership in the candidate list: every non-`unknown`,
non-reflexive triple that does not restate a premise. -/
theorem mem_candList (item : QuizItem) (c : Conclusion) :
    c ∈ candList item ↔
      c.type ≠ QType.unknown ∧ c.subject ≠ c.object ∧
        ckey c ∉ baseKeysOf item := by
  unfold candList
  rw [List.mem_flatMap]
  constructor
  · rintro ⟨ty, _hty, hc⟩
    by_cases h : ty = QType.unknown
    · rw [if_pos h] at hc
      simp at hc
    · rw [if_neg h] at hc
      rw [List.mem_flatMap] at hc
      obtain ⟨s, _hs, hc⟩ := hc
      rw [List.mem_flatMap] at hc
      obtain ⟨o, _ho, hc⟩ := hc
      by_cases hcond : s ≠ o ∧ (ty, s, o) ∉ baseKeysOf item
      · rw [if_pos hcond] at hc
        have he : c = ⟨ty, s, o⟩ := by simpa using hc
        subst he
        exact ⟨h, hcond.1, hcond.2⟩
      · rw [if_neg hcond] at hc
        simp at hc
  · rintro ⟨h1, h2, h3⟩
    refine ⟨c.type, ?_, ?_⟩
    · cases c.type <;> simp [allTypes]
    · rw [if_neg h1, List.mem_flatMap]
      refine ⟨c.subject, by cases c.subject <;> simp [vars], ?_⟩
      rw [List.mem_flatMap]
      refine ⟨c.object, by cases c.object <;> simp [vars], ?_⟩
      rw [if_pos ⟨h2, h3⟩]
      simp

/-! ## Library invariants and term-map facts. -/

/-- Two statements relate the same unordered variable pair. -/
abbrev pairEq (s1 s2 : Conclusion) : Prop :=
  (s1.subject = s2.subject ∧ s1.object = s2.object) ∨
  (s1.subject = s2.object ∧ s1.object = s2.subject)

/-- Modelled from the spec (§3, §8) and `quiz-templates.test.ts`: the
structural template invariants of the library `quiz-templates.json`
(file not present under `src/`): premises are irreflexive, the two
premises relate distinct unordered variable pairs, and no canonical
conclusion is reflexive or restates a premise. -/
abbrev ItemOK (item : QuizItem) : Prop :=
  item.statements.1.subject ≠ item.statements.1.object ∧
  item.statements.2.subject ≠ item.statements.2.object ∧
  ¬ pairEq item.statements.1 item.statements.2 ∧
  ∀ c ∈ item.correct, c.subject ≠ c.object ∧ ckey c ∉ baseKeysOf item

/-- The sentence patterns separate kinds and terms: two renders over
vocabulary terms agree only when kind, subject term and object term all
agree.  The modelled tables satisfy this for any concrete vocabulary
without placeholder fragments. -/
abbrev RenderInj (t : QType → String) (terms : List String) : Prop :=
  ∀ (ty1 ty2 : QType), ∀ a1 ∈ terms, ∀ b1 ∈ terms, ∀ a2 ∈ terms,
    ∀ b2 ∈ terms,
    render (t ty1) a1 b1 = render (t ty2) a2 b2 →
    ty1 = ty2 ∧ a1 = a2 ∧ b1 = b2

/-- The three assigned terms are members of the vocabulary list. -/
theorem termMapOf_mem (l : List String) (tm : Var → String)
    (h : termMapOf l = Option.some tm) : ∀ v, tm v ∈ l := by
  rcases l with _ | ⟨x, _ | ⟨y, _ | ⟨z, l3⟩⟩⟩
  · cases h
  · cases h
  · cases h
  · cases h
    intro v
    cases v <;> simp

/-- On a duplicate-free vocabulary the assignment is injective. -/
theorem termMapOf_inj (l : List String) (tm : Var → String)
    (h : termMapOf l = Option.some tm) (hnd : l.Nodup) :
    ∀ v w, tm v = tm w → v = w := by
  rcases l with _ | ⟨x, _ | ⟨y, _ | ⟨z, l3⟩⟩⟩
  · cases h
  · cases h
  · cases h
  · cases h
    simp only [List.nodup_cons, List.mem_cons] at hnd
    have hxy : x ≠ y := fun he => hnd.1 (Or.inl he)
    have hxz : x ≠ z := fun he => hnd.1 (Or.inr (Or.inl he))
    have hyz : y ≠ z := fun he => hnd.2.1 (Or.inl he)
    intro v w
    cases v <;> cases w <;> simp <;>
      first
        | exact fun he => absurd he hxy
        | exact fun he => absurd he hxz
        | exact fun he => absurd he hyz
        | exact fun he => absurd he.symm hxy
        | exact fun he => absurd he.symm hxz
        | exact fun he => absurd he.symm hyz

/-- `pairEq` is symmetric. -/
theorem pairEq_symm (s1 s2 : Conclusion) (h : pairEq s1 s2) :
    pairEq s2 s1 := by
  rcases h with ⟨h1, h2⟩ | ⟨h1, h2⟩
  · exact Or.inl ⟨h1.symm, h2.symm⟩
  · exact Or.inr ⟨h2.symm, h1.symm⟩

/-- A conclusion derived from a premise never restates that premise nor
the other premise (given irreflexivity and distinct unordered pairs). -/
theorem derive_not_premise (s other e : Conclusion)
    (hso : s.subject ≠ s.object)
    (hp : ¬ pairEq s other)
    (hd : specDerives s e) :
    ckey e ≠ ckey s ∧ ckey e ≠ ckey other := by
  rcases hd with ⟨hty, he | he⟩ | ⟨hty, he⟩ | ⟨hty, he⟩ <;> subst he
  · constructor
    · intro h
      simp only [ckey, Prod.mk.injEq] at h
      rw [hty] at h
      exact absurd h.1 (by decide)
    · intro h
      simp only [ckey, Prod.mk.injEq] at h
      exact hp (Or.inl ⟨h.2.1, h.2.2⟩)
  · constructor
    · intro h
      simp only [ckey, Prod.mk.injEq] at h
      rw [hty] at h
      exact absurd h.1 (by decide)
    · intro h
      simp only [ckey, Prod.mk.injEq] at h
      exact hp (Or.inr ⟨h.2.2, h.2.1⟩)
  · constructor
    · intro h
      simp only [ckey, Prod.mk.injEq] at h
      exact hso h.2.1.symm
    · intro h
      simp only [ckey, Prod.mk.injEq] at h
      exact hp (Or.inr ⟨h.2.2, h.2.1⟩)
  · constructor
    · intro h
      simp only [ckey, Prod.mk.injEq] at h
      exact hso h.2.1.symm
    · intro h
      simp only [ckey, Prod.mk.injEq] at h
      exact hp (Or.inr ⟨h.2.2, h.2.1⟩)

/-- The rejection loop only returns library members. -/
theorem pickValid_mem :
    ∀ (fuel : Nat) (data : List QuizItem) (r : Nat → Nat)
      (p : QuizItem × Nat), pickValid fuel data r = Option.some p →
        p.1 ∈ data := by
  intro fuel
  induction fuel with
  | zero => intro data r p h; cases h
  | succ fuel ih =>
    intro data r p h
    unfold pickValid at h
    cases hi : getRandomElement data (r 0) with
    | none => rw [hi] at h; cases h
    | some item =>
      have hmem : item ∈ data := by
        unfold getRandomElement at hi
        cases hlt : decide (r 0 % data.length < data.length) with
        | false =>
          rw [List.getElem?_eq_none (Nat.le_of_not_lt
            (of_decide_eq_false hlt))] at hi
          cases hi
        | true =>
          have := of_decide_eq_true hlt
          rw [List.getElem?_eq_getElem this] at hi
          cases hi
          exact List.getElem_mem this
      rw [hi] at h
      dsimp only at h
      by_cases hv : isValid item
      · rw [if_pos hv] at h
        cases h
        exact hmem
      · rw [if_neg hv] at h
        cases hq : pickValid fuel data (shiftStream r 1) with
        | none => rw [hq] at h; cases h
        | some q =>
          rw [hq] at h
          cases h
          exact ih data _ q hq

/-! ## A correct candidate always survives into the multi-answer pool. -/

/-- A valid template's expansion has a non-`unknown` entry. -/
theorem isValid_exists_nonunknown (item : QuizItem)
    (hV : isValid item = true) :
    ∃ e ∈ expandCorrectAnswers item, e.type ≠ QType.unknown := by
  unfold isValid at hV
  rw [Bool.and_eq_true] at hV
  by_contra hno
  push_neg at hno
  have hall : (expandCorrectAnswers item).all
      (fun c => c.type == QType.unknown) = true :=
    List.all_eq_true.mpr fun x hx => by
      rw [hno x hx]
      rfl
  have hcontra := hV.2
  rw [hall] at hcontra
  cases hcontra

/-- For a valid template satisfying the library invariants, some
candidate is labelled correct. -/
theorem exists_correct_cand (item : QuizItem) (hOK : ItemOK item)
    (hV : isValid item = true) :
    ∃ c ∈ candList item,
      multiLabel (expandCorrectAnswers item) c = true := by
  obtain ⟨e, he, hety⟩ := isValid_exists_nonunknown item hV
  refine ⟨e, ?_, ?_⟩
  · rw [mem_candList]
    have hsrc := (mem_expand item e).mp he
    rw [List.append_assoc, List.mem_append] at hsrc
    have key : e.subject ≠ e.object ∧ ckey e ∉ baseKeysOf item := by
      rcases hsrc with hc | hd
      · exact hOK.2.2.2 e hc
      · rw [List.mem_append] at hd
        rcases hd with hd | hd
        · have hsd := (mem_deriveStmt _ e).mp hd
          have hne := derive_not_premise item.statements.1
            item.statements.2 e hOK.1 hOK.2.2.1 hsd
          refine ⟨?_, ?_⟩
          · rcases hsd with ⟨_, hee | hee⟩ | ⟨_, hee⟩ | ⟨_, hee⟩ <;>
              subst hee
            · exact hOK.1
            · exact Ne.symm hOK.1
            · exact Ne.symm hOK.1
            · exact Ne.symm hOK.1
          · intro hmem
            simp only [baseKeysOf, List.mem_cons, List.not_mem_nil,
              or_false] at hmem
            rcases hmem with h | h
            · exact hne.1 h
            · exact hne.2 h
        · have hsd := (mem_deriveStmt _ e).mp hd
          have hp2 : ¬ pairEq item.statements.2 item.statements.1 :=
            fun h => hOK.2.2.1 (pairEq_symm _ _ h)
          have hne := derive_not_premise item.statements.2
            item.statements.1 e hOK.2.1 hp2 hsd
          refine ⟨?_, ?_⟩
          · rcases hsd with ⟨_, hee | hee⟩ | ⟨_, hee⟩ | ⟨_, hee⟩ <;>
              subst hee
            · exact hOK.2.1
            · exact Ne.symm hOK.2.1
            · exact Ne.symm hOK.2.1
            · exact Ne.symm hOK.2.1
          · intro hmem
            simp only [baseKeysOf, List.mem_cons, List.not_mem_nil,
              or_false] at hmem
            rcases hmem with h | h
            · exact hne.2 h
            · exact hne.1 h
    exact ⟨hety, key.1, key.2⟩
  · show (expandCorrectAnswers item).any _ = true
    rw [List.any_eq_true]
    exact ⟨e, he, by simp⟩

/-! ## The pool and the finalize step. -/

/-- Rendered sentences separate conclusions, given an injective
assignment into a separating vocabulary. -/
theorem render_conc_inj (t : QType → String) (terms : List String)
    (tm : Var → String) (hmem : ∀ v, tm v ∈ terms)
    (hinj : ∀ v w, tm v = tm w → v = w) (hR : RenderInj t terms)
    (c1 c2 : Conclusion)
    (h : render (t c1.type) (tm c1.subject) (tm c1.object) =
      render (t c2.type) (tm c2.subject) (tm c2.object)) : c1 = c2 := by
  obtain ⟨hty, hs, ho⟩ := hR c1.type c2.type _ (hmem _) _ (hmem _)
    _ (hmem _) _ (hmem _) h
  have hs2 := hinj _ _ hs
  have ho2 := hinj _ _ ho
  have key : (⟨c1.type, c1.subject, c1.object⟩ : Conclusion) =
      ⟨c2.type, c2.subject, c2.object⟩ := by
    rw [hty, hs2, ho2]
  exact key

/-- With a separating rendering, the sentence-dedup step removes
nothing: the pool is exactly the shuffled candidate list. -/
theorem answersPool_eq (t : QType → String) (terms : List String)
    (tm : Var → String) (item : QuizItem) (r : Nat → Nat)
    (hmem : ∀ v, tm v ∈ terms) (hinj : ∀ v w, tm v = tm w → v = w)
    (hR : RenderInj t terms) :
    answersPool t tm item r =
      shuffleList (possibleAnswersOf t tm item) r := by
  unfold answersPool
  apply dedupBy_eq_self
  rw [List.Perm.nodup_iff
    ((shuffleList_perm (possibleAnswersOf t tm item) r).map
      Answer.sentence)]
  unfold possibleAnswersOf
  rw [List.map_map]
  refine List.Nodup.map_on ?_ (candList_nodup item)
  intro x hx y hy hxy
  exact render_conc_inj t terms tm hmem hinj hR x y hxy

/-- Shape of a successful finalize step: one to six answers, at least
one correct whenever the pool has a correct answer, and every delivered
answer comes from the pool. -/
theorem finalize_props (pool : List Answer) (r : Nat → Nat)
    (ans : List Answer) (hne : pool ≠ [])
    (hcor : ∃ a ∈ pool, a.isCorrect = true)
    (hfin : finalizeAnswers pool r = Option.some ans) :
    (1 ≤ ans.length ∧ ans.length ≤ 6) ∧
    (∃ a ∈ ans, a.isCorrect = true) ∧
    ∀ a ∈ ans, a ∈ pool := by
  have hlen : 0 < pool.length := List.length_pos.mpr hne
  unfold finalizeAnswers at hfin
  dsimp only at hfin
  by_cases hany : (pool.take 6).any Answer.isCorrect = true
  · rw [if_pos hany] at hfin
    cases hfin
    refine ⟨⟨?_, ?_⟩, ?_, ?_⟩
    · rw [List.length_take]
      omega
    · rw [List.length_take]
      omega
    · obtain ⟨a, ha, hc⟩ := List.any_eq_true.mp hany
      exact ⟨a, ha, hc⟩
    · intro a ha
      exact List.Sublist.mem ha (List.take_sublist _ _)
  · rw [if_neg hany] at hfin
    obtain ⟨aC, haC, hcC⟩ := hcor
    have hfilNe : pool.filter Answer.isCorrect ≠ [] := by
      intro h0
      have : aC ∈ pool.filter Answer.isCorrect :=
        List.mem_filter.mpr ⟨haC, hcC⟩
      rw [h0] at this
      exact absurd this (List.not_mem_nil _)
    have hshperm := shuffleList_perm (pool.filter Answer.isCorrect) r
    have hshNe : shuffleList (pool.filter Answer.isCorrect) r ≠ [] := by
      intro h0
      have hp := hshperm.symm
      rw [h0] at hp
      exact hfilNe (List.Perm.eq_nil hp)
    cases hh : (shuffleList (pool.filter Answer.isCorrect) r).head? with
    | none => exact absurd (List.head?_eq_none_iff.mp hh) hshNe
    | some c0 =>
      rw [hh] at hfin
      cases hfin
      have hc0f : c0 ∈ pool.filter Answer.isCorrect :=
        hshperm.mem_iff.mp (List.mem_of_mem_head? (by rw [hh]; rfl))
      refine ⟨⟨?_, ?_⟩, ?_, ?_⟩
      · rw [List.length_append, List.length_dropLast, List.length_take]
        simp
      · rw [List.length_append, List.length_dropLast, List.length_take]
        simp
      · exact ⟨c0, List.mem_append_right _ (List.mem_singleton_self c0),
          (List.mem_filter.mp hc0f).2⟩
      · intro a ha
        rcases List.mem_append.mp ha with ha | ha
        · exact List.Sublist.mem ha
            ((List.dropLast_sublist _).trans (List.take_sublist _ _))
        · rw [List.mem_singleton] at ha
          subst ha
          exact List.Sublist.mem (List.mem_filter.mp hc0f).1
            (List.Sublist.refl _)

/-- C3: whenever multi-answer generation returns (the unbounded
rejection loop is modelled by fuel, so success is conditional), and the
vocabulary is duplicate-free, the rendering separates kinds and terms,
and the library satisfies the spec's template invariants, the output has
between 1 and 6 answers, at least one of them is correct (the
post-truncation repair splices a correct candidate back in when the
truncation dropped them all), and no answer's rendered sentence equals a
rendered premise sentence. -/
theorem claim3_multi_shape :
    ∀ (data : List QuizItem) (t : QType → String) (terms : List String)
      (fuel : Nat) (r : Nat → Nat) (out : QuizOut),
      terms.Nodup → RenderInj t terms →
      (∀ item ∈ data, ItemOK item) →
      generateMultiQuiz data t terms fuel r = Option.some out →
      (1 ≤ out.answers.length ∧ out.answers.length ≤ 6) ∧
      (∃ a ∈ out.answers, a.isCorrect = true) ∧
      (∀ a ∈ out.answers, ∀ s ∈ out.baseSentences, a.sentence ≠ s) := by
  intro data t terms fuel r out hnd hR hitems hgen
  unfold generateMultiQuiz at hgen
  cases htm : termMapOf (shuffleList terms r) with
  | none => rw [htm] at hgen; cases hgen
  | some tm =>
    rw [htm] at hgen
    dsimp only at hgen
    cases hpick : pickValid fuel data
        (shiftStream r (terms.length - 1)) with
    | none => rw [hpick] at hgen; cases hgen
    | some p =>
      obtain ⟨item, k⟩ := p
      rw [hpick] at hgen
      dsimp only at hgen
      rw [Option.map_eq_some'] at hgen
      obtain ⟨ans, hfin, hout⟩ := hgen
      have hOK := hitems item (pickValid_mem _ _ _ _ hpick)
      have hV := pickValid_isValid _ _ _ _ hpick
      have hmemT : ∀ v, tm v ∈ terms := fun v =>
        (shuffleList_perm terms r).mem_iff.mp (termMapOf_mem _ tm htm v)
      have hinjT : ∀ v w, tm v = tm w → v = w :=
        termMapOf_inj _ tm htm
          ((shuffleList_perm terms r).nodup_iff.mpr hnd)
      have hpool := answersPool_eq t terms tm item
        (shiftStream r (terms.length - 1 + k)) hmemT hinjT hR
      have hpoolPerm : List.Perm
          (answersPool t tm item (shiftStream r (terms.length - 1 + k)))
          (possibleAnswersOf t tm item) := by
        rw [hpool]
        exact shuffleList_perm _ _
      obtain ⟨eC, heCand, heLab⟩ := exists_correct_cand item hOK hV
      have haE : answerOf t tm (expandCorrectAnswers item) eC ∈
          possibleAnswersOf t tm item := by
        unfold possibleAnswersOf
        exact List.mem_map_of_mem _ heCand
      have hpoolNe : answersPool t tm item
          (shiftStream r (terms.length - 1 + k)) ≠ [] := by
        intro h0
        rw [h0] at hpoolPerm
        have := hpoolPerm.symm
        have hnil := List.Perm.eq_nil this
        rw [hnil] at haE
        exact absurd haE (List.not_mem_nil _)
      have hcor : ∃ a ∈ answersPool t tm item
          (shiftStream r (terms.length - 1 + k)), a.isCorrect = true :=
        ⟨answerOf t tm (expandCorrectAnswers item) eC,
          hpoolPerm.mem_iff.mpr haE, heLab⟩
      have hfp := finalize_props _ _ ans hpoolNe hcor hfin
      have hbase : ∀ a ∈ answersPool t tm item
          (shiftStream r (terms.length - 1 + k)),
          ∀ s ∈ (stmts item).map fun st =>
            render (t st.type) (tm st.subject) (tm st.object),
          a.sentence ≠ s := by
        intro a ha s hs heq
        have haP : a ∈ possibleAnswersOf t tm item :=
          hpoolPerm.mem_iff.mp ha
        obtain ⟨cand, hcand, hae⟩ := List.mem_map.mp haP
        obtain ⟨st, hst, hse⟩ := List.mem_map.mp hs
        have hrend : render (t cand.type) (tm cand.subject)
            (tm cand.object) = render (t st.type) (tm st.subject)
            (tm st.object) := by
          rw [← hse] at heq
          rw [← hae] at heq
          exact heq
        have hcs : cand = st :=
          render_conc_inj t terms tm hmemT hinjT hR cand st hrend
        have hnot := ((mem_candList item cand).mp hcand).2.2
        have hin : ckey st ∈ baseKeysOf item := by
          have hst2 : st = item.statements.1 ∨ st = item.statements.2 := by
            simpa [stmts] using hst
          rcases hst2 with h | h <;> simp [baseKeysOf, h]
        rw [hcs] at hnot
        exact hnot hin
      rw [← hout]
      exact ⟨hfp.1, hfp.2.1, fun a ha s hs =>
        hbase a (hfp.2.2 a ha) s hs⟩

/-- C3, witness output: a multi-answer run on a Barbara-only library
with the modelled English table and the all-zeros stream. -/
def c3Out : QuizOut :=
  (generateMultiQuiz [barbara] enT enTerms 1 (fun _ => 0)).getD ⟨[], []⟩

/-- C3, witness theorem. -/
theorem claim3_witness :
    generateMultiQuiz [barbara] enT enTerms 1 (fun _ => 0) =
      Option.some c3Out ∧
    (1 ≤ c3Out.answers.length ∧ c3Out.answers.length ≤ 6) ∧
    (∃ a ∈ c3Out.answers, a.isCorrect = true) ∧
    (∀ a ∈ c3Out.answers, ∀ s ∈ c3Out.baseSentences,
      a.sentence ≠ s) := by
  have hgen : generateMultiQuiz [barbara] enT enTerms 1 (fun _ => 0) =
      Option.some c3Out := by
    unfold c3Out
    rfl
  exact ⟨hgen, claim3_multi_shape [barbara] enT enTerms 1 (fun _ => 0)
    c3Out (by decide) (by decide) (by decide) hgen⟩
